import Mathlib

/-!
Verification development for the song_painter repository.

The development shallowly embeds the core data model and operations of the
repository (src/timeline.rs, src/paint.rs, src/main.rs):

* the stroke recorder (`RecordSystem` in timeline.rs) with its
  direction/frontier clamping, undo/redo stacks;
* the canvas rasterizer (`Canvas` in paint.rs) with `draw_line` (Bresenham)
  and `resize` (replay of the stroke history);
* the audio synthesizer (`ToneSamples`/`PlayerSource` in timeline.rs, and the
  older variant in main.rs).

Modelling conventions:
* `f32` values are modelled exactly: as `ℚ` where only finite values occur,
  and as `WithTop ℚ` where the code also uses `f32::INFINITY` (the recorder
  frontier).  `f32::max`/`f32::min` become the lattice `max`/`min`.
* Rust `Vec` stacks that are pushed/popped at the back (`history`,
  `undo_history`) are modelled as lists whose HEAD is the most recent
  element (the back of the `Vec`).  Individual strokes keep their segments
  in chronological order (append at the tail).
* fallible code paths (out-of-bounds indexing, i.e. Rust panics, and
  potentially non-terminating loops) are modelled with `Option`: `none`
  means the Rust code would panic or diverge.
* side effects on the GL layer (`ToneSystem.mark_dirty`, texture uploads)
  are external to the structures modelled here and are omitted.
-/

/-! ### Recorder model (src/timeline.rs, `RecordSystem`)

Points handed to the recorder.  Coordinates are `f32` in Rust; the recorder
clamps x-coordinates against a frontier initialised to `0.0` or
`f32::INFINITY`, so x-values are modelled in `WithTop ℚ` (with `⊤` playing
the role of `+∞`). -/
structure PtX where
  x : WithTop ℚ
  y : WithTop ℚ
deriving DecidableEq

/-- A recorded segment (`Line` in timeline.rs).  `stop` is Rust's `end`
field (`end` is a reserved word in Lean). -/
structure LineX where
  start : PtX
  stop : PtX
deriving DecidableEq

/-- `RecordDirection` from timeline.rs. -/
inductive RecordDirection
  | undefined
  | right
  | left
deriving DecidableEq

/-- `Record` from timeline.rs: the active stroke's direction and running
frontier `clamp_x`. -/
structure Record where
  direction : RecordDirection
  clampX : WithTop ℚ
deriving DecidableEq

/-- `Record::default()`: direction `Undefined`, `clamp_x = 0.0`. -/
def Record.default : Record := { direction := .undefined, clampX := 0 }

/-- `RecordSystem` from timeline.rs.  `history` and `undoHistory` are the
stacks of strokes; the list head is the most recently pushed stroke (the
back of the Rust `Vec`). -/
structure RecordSystem where
  history : List (List LineX)
  undoHistory : List (List LineX)
  current : Record
deriving DecidableEq

/-- The initial recorder: both stacks empty, default record context. -/
def RecordSystem.init : RecordSystem :=
  { history := [], undoHistory := [], current := Record.default }

/-- `RecordSystem::new_record`: reset the record context, clear the redo
stack, drop the last stroke if it is empty, push a fresh empty stroke. -/
def RecordSystem.new_record (rs : RecordSystem) : RecordSystem :=
  let history :=
    match rs.history with
    | [] :: rest => rest
    | h => h
  { history := [] :: history, undoHistory := [], current := Record.default }

/-- `RecordSystem::add_line`: on the first segment of a stroke fix the
direction from the raw endpoints and initialise the frontier (`0` going
right, `+∞` going left); clamp both endpoint x-coordinates against the
frontier with `max` (right) or `min` (left); update the frontier; append
the clamped segment to the last stroke if one exists.  Returns the updated
system and the stored segment (`None` when the history is empty).  The
`tone_system.mark_dirty()` side effect concerns a different component and
is not part of this state. -/
def RecordSystem.add_line (rs : RecordSystem) (start stop : PtX) :
    RecordSystem × Option LineX :=
  let current :=
    if rs.current.direction = RecordDirection.undefined then
      if start.x < stop.x then
        { direction := RecordDirection.right, clampX := (0 : WithTop ℚ) }
      else
        { direction := RecordDirection.left, clampX := (⊤ : WithTop ℚ) }
    else rs.current
  let cf : WithTop ℚ → WithTop ℚ → WithTop ℚ :=
    if current.direction = RecordDirection.right then max else min
  let line : LineX :=
    { start := { x := cf start.x current.clampX, y := start.y },
      stop := { x := cf stop.x current.clampX, y := stop.y } }
  let clampX := cf current.clampX (cf line.start.x line.stop.x)
  match rs.history with
  | [] => ({ rs with current := { current with clampX := clampX } }, none)
  | s :: rest =>
      ({ history := (s ++ [line]) :: rest,
         undoHistory := rs.undoHistory,
         current := { current with clampX := clampX } }, some line)

/-- `RecordSystem::undo`: pop the last stroke onto the redo stack (no-op on
empty history). -/
def RecordSystem.undo (rs : RecordSystem) : RecordSystem :=
  match rs.history with
  | [] => rs
  | s :: rest =>
      { history := rest, undoHistory := s :: rs.undoHistory,
        current := rs.current }

/-- `RecordSystem::redo`: pop the top of the redo stack back onto the
history (no-op on empty redo stack). -/
def RecordSystem.redo (rs : RecordSystem) : RecordSystem :=
  match rs.undoHistory with
  | [] => rs
  | s :: rest =>
      { history := s :: rs.history, undoHistory := rest,
        current := rs.current }

/-! ### Claim C9: undo immediately followed by redo -/

/-- C9: for every recorder state with a non-empty stroke history, undo
immediately followed by redo restores a structurally identical history and
leaves the redo stack as it was before the undo. -/
theorem undo_redo_roundtrip (rs : RecordSystem) (h : rs.history ≠ []) :
    (rs.undo.redo).history = rs.history ∧
    (rs.undo.redo).undoHistory = rs.undoHistory := by
  match hh : rs.history with
  | [] => exact absurd hh h
  | s :: rest =>
    constructor <;> simp [RecordSystem.undo, RecordSystem.redo, hh]

/-- A concrete recorder state with one recorded stroke, used as witness
input. -/
def rsOneStroke : RecordSystem :=
  { history := [[{ start := { x := 0, y := 0 }, stop := { x := 1, y := 1 } }]],
    undoHistory := [], current := Record.default }

/-- Witness for C9 at a concrete one-stroke history. -/
theorem undo_redo_roundtrip_witness :
    rsOneStroke.history ≠ [] ∧
    ((rsOneStroke.undo.redo).history = rsOneStroke.history ∧
     (rsOneStroke.undo.redo).undoHistory = rsOneStroke.undoHistory) :=
  ⟨by decide, undo_redo_roundtrip rsOneStroke (by decide)⟩

/-! ### Claim C7: add_line with no active stroke -/

/-- C7 counterexample: from the initial (empty-history) recorder,
`add_line` returns no segment reference but does NOT leave the whole
recorder state unchanged: the current direction and frontier are still
updated. -/
theorem add_line_empty_mutates_context :
    (RecordSystem.init.add_line { x := 0, y := 0 } { x := 1, y := 1 }).2 = none ∧
    (RecordSystem.init.add_line { x := 0, y := 0 } { x := 1, y := 1 }).1 ≠
      RecordSystem.init := by
  constructor <;> decide

/-- C7 amended: with no active stroke (empty history), `add_line` returns
no segment reference and leaves the stroke history and the redo stack
unchanged (the current direction and frontier may still change). -/
theorem add_line_empty_noop (rs : RecordSystem) (start stop : PtX)
    (h : rs.history = []) :
    (rs.add_line start stop).2 = none ∧
    (rs.add_line start stop).1.history = rs.history ∧
    (rs.add_line start stop).1.undoHistory = rs.undoHistory := by
  refine ⟨?_, ?_, ?_⟩ <;> simp [RecordSystem.add_line, h]

/-- Witness for the amended C7 at a concrete empty-history state. -/
theorem add_line_empty_noop_witness :
    (RecordSystem.init.history = []) ∧
    ((RecordSystem.init.add_line { x := 2, y := 0 } { x := 1, y := 0 }).2 = none ∧
     (RecordSystem.init.add_line { x := 2, y := 0 } { x := 1, y := 0 }).1.history =
       RecordSystem.init.history ∧
     (RecordSystem.init.add_line { x := 2, y := 0 } { x := 1, y := 0 }).1.undoHistory =
       RecordSystem.init.undoHistory) :=
  ⟨rfl, add_line_empty_noop RecordSystem.init _ _ rfl⟩

/-! ### Claim C2: stroke monotonicity under recorder operations

The interaction adapter (DrawingSystem / Timeline) drives the recorder with
start-stroke (`new_record`), add-segment (`add_line`), `undo` and `redo`
calls; `Op` is the alphabet of those calls and `execOps` replays a call
sequence from the initial recorder. -/
inductive Op
  | newRecord
  | addLine (start stop : PtX)
  | undo
  | redo
deriving DecidableEq

/-- One recorder call. -/
def applyOp (rs : RecordSystem) : Op → RecordSystem
  | .newRecord => rs.new_record
  | .addLine s e => (rs.add_line s e).1
  | .undo => rs.undo
  | .redo => rs.redo

/-- Replay a call sequence from a given state. -/
def execFrom (rs : RecordSystem) : List Op → RecordSystem
  | [] => rs
  | op :: rest => execFrom (applyOp rs op) rest

/-- Replay a call sequence from the initial recorder. -/
def execOps (ops : List Op) : RecordSystem :=
  execFrom RecordSystem.init ops

/-- Smaller x-extent of a segment. -/
def segMinX (l : LineX) : WithTop ℚ := min l.start.x l.stop.x

/-- Larger x-extent of a segment. -/
def segMaxX (l : LineX) : WithTop ℚ := max l.start.x l.stop.x

/-- Consecutive segments move forward in time: each segment starts no
earlier than the previous one ends. -/
def fwdChain : List LineX → Bool
  | [] => true
  | [_] => true
  | a :: b :: rest => (decide (segMaxX a ≤ segMinX b)) && fwdChain (b :: rest)

/-- Consecutive segments move backward in time. -/
def bwdChain : List LineX → Bool
  | [] => true
  | [_] => true
  | a :: b :: rest => (decide (segMaxX b ≤ segMinX a)) && bwdChain (b :: rest)

/-- The monotonicity property claimed for a stored stroke: its segments'
x-extents are non-decreasing when the first segment has `start.x < end.x`
(a forward stroke) and non-increasing otherwise. -/
def strokeMonotone (s : List LineX) : Bool :=
  match s with
  | [] => true
  | f :: _ => if f.start.x < f.stop.x then fwdChain s else bwdChain s

/-- The operation sequence exhibiting the counterexample for C2: a forward
stroke, then a backward stroke, then an undo, then one more add-segment.
The final add-segment lands on the first (forward) stroke but is clamped
with the SECOND stroke's leftover record context, producing a backward
segment inside a forward stroke. -/
def c2CxOps : List Op :=
  [Op.newRecord,
   Op.addLine { x := 1, y := 0 } { x := 5, y := 0 },
   Op.newRecord,
   Op.addLine { x := 9, y := 0 } { x := 8, y := 0 },
   Op.undo,
   Op.addLine { x := 3, y := 0 } { x := 2, y := 0 }]

/-- C2 counterexample: the state reached by `c2CxOps` (all of whose input
x-coordinates are nonnegative) stores a stroke that violates the claimed
monotonicity invariant: its first segment runs forward from x=1 to x=5, yet
a later stored segment runs from x=3 back to x=2. -/
theorem strokeMonotone_violated :
    strokeMonotone ((execOps c2CxOps).history.headD []) = false ∧
    (execOps c2CxOps).history.headD [] ∈ (execOps c2CxOps).history := by
  constructor <;> decide

/-- Appending a segment that starts no earlier than every previous
segment's end preserves a forward chain. -/
theorem fwdChain_append : ∀ (s : List LineX) (l : LineX),
    fwdChain s = true → (∀ a ∈ s, segMaxX a ≤ segMinX l) →
    fwdChain (s ++ [l]) = true
  | [], l, _, _ => rfl
  | [a], l, _, hb => by
      simp only [List.cons_append, List.nil_append, fwdChain, Bool.and_eq_true,
        decide_eq_true_eq]
      exact ⟨hb a (by simp), trivial⟩
  | a :: b :: rest, l, hs, hb => by
      simp only [List.cons_append, fwdChain, Bool.and_eq_true, decide_eq_true_eq] at hs ⊢
      refine ⟨hs.1, ?_⟩
      have := fwdChain_append (b :: rest) l hs.2 (fun x hx => hb x (by simp [hx]))
      simpa using this

/-- Appending a segment that ends no later than every previous segment's
start preserves a backward chain. -/
theorem bwdChain_append : ∀ (s : List LineX) (l : LineX),
    bwdChain s = true → (∀ a ∈ s, segMaxX l ≤ segMinX a) →
    bwdChain (s ++ [l]) = true
  | [], l, _, _ => rfl
  | [a], l, _, hb => by
      simp only [List.cons_append, List.nil_append, bwdChain, Bool.and_eq_true,
        decide_eq_true_eq]
      exact ⟨hb a (by simp), trivial⟩
  | a :: b :: rest, l, hs, hb => by
      simp only [List.cons_append, bwdChain, Bool.and_eq_true, decide_eq_true_eq] at hs ⊢
      refine ⟨hs.1, ?_⟩
      have := bwdChain_append (b :: rest) l hs.2 (fun x hx => hb x (by simp [hx]))
      simpa using this

/-- A single segment is monotone. -/
theorem strokeMonotone_singleton (l : LineX) : strokeMonotone [l] = true := by
  simp only [strokeMonotone]
  split <;> rfl

/-- Compatibility of an active record context (direction `d`, frontier
`c`) with the stroke it is extending: the direction matches the stroke's
first segment, the frontier bounds all stored x-extents, and the stroke is
chained in the context's direction. -/
def CurOkAux (d : RecordDirection) (c : WithTop ℚ) (stroke : List LineX) : Prop :=
  match d with
  | .undefined => stroke = []
  | .right =>
      (∃ f frest, stroke = f :: frest ∧ f.start.x < f.stop.x) ∧
      (∀ l ∈ stroke, segMaxX l ≤ c) ∧
      fwdChain stroke = true
  | .left =>
      (∃ f frest, stroke = f :: frest ∧ ¬ f.start.x < f.stop.x) ∧
      (∀ l ∈ stroke, c ≤ segMinX l) ∧
      bwdChain stroke = true

/-- Compatibility of the active record context with the head stroke. -/
def CurOk (cur : Record) (stroke : List LineX) : Prop :=
  CurOkAux cur.direction cur.clampX stroke

/-- Reachability invariant for the recorder: all stored strokes are
monotone, and — when the active record context is fresh for the head
stroke (`ok = true`) — the context is compatible with that stroke. -/
def RecInv (rs : RecordSystem) (ok : Bool) : Prop :=
  (∀ s ∈ rs.history, strokeMonotone s = true) ∧
  (∀ s ∈ rs.undoHistory, strokeMonotone s = true) ∧
  (ok = true → ∃ stroke rest, rs.history = stroke :: rest ∧ CurOk rs.current stroke)

/-- A stroke compatible with some record context is monotone. -/
theorem strokeMonotone_of_curOk (d : RecordDirection) (c : WithTop ℚ)
    (stroke : List LineX) (h : CurOkAux d c stroke) :
    strokeMonotone stroke = true := by
  match d with
  | .undefined => rw [show stroke = [] from h]; rfl
  | .right =>
      obtain ⟨⟨f, frest, hstroke, hf⟩, _, hchain⟩ := h
      rw [hstroke] at hchain ⊢
      simp [strokeMonotone, if_pos hf, hchain]
  | .left =>
      obtain ⟨⟨f, frest, hstroke, hf⟩, _, hchain⟩ := h
      rw [hstroke] at hchain ⊢
      simp [strokeMonotone, if_neg hf, hchain]

theorem add_line_inv (rs : RecordSystem) (s e : PtX)
    (hInv : RecInv rs true)
    (hs : (0 : WithTop ℚ) ≤ s.x) (he : (0 : WithTop ℚ) ≤ e.x) :
    RecInv (rs.add_line s e).1 true := by
  obtain ⟨hH, hU, hOk⟩ := hInv
  obtain ⟨stroke, rest, hhist, hcur⟩ := hOk rfl
  have hrest : ∀ t ∈ rest, strokeMonotone t = true := by
    intro t ht
    exact hH t (by rw [hhist]; exact List.mem_cons_of_mem _ ht)
  unfold RecordSystem.add_line
  rw [hhist]
  unfold CurOk at hcur
  cases hdir : rs.current.direction with
  | right =>
    rw [hdir] at hcur
    obtain ⟨⟨f, frest, hstroke, hf⟩, hbound, hchain⟩ := hcur
    simp only [hdir, reduceIte, reduceCtorEq]
    set c := rs.current.clampX with hcdef
    set lineN : LineX :=
      { start := { x := s.x ⊔ c, y := s.y }, stop := { x := e.x ⊔ c, y := e.y } }
      with hlineN
    set cN := c ⊔ (s.x ⊔ c ⊔ (e.x ⊔ c)) with hcN
    have hc_le : c ≤ cN := le_sup_left
    have hline_le : segMaxX lineN ≤ cN := le_sup_right
    have hmin_line : c ≤ segMinX lineN := le_inf le_sup_right le_sup_right
    have hnew : CurOkAux RecordDirection.right cN (stroke ++ [lineN]) := by
      refine ⟨⟨f, frest ++ [lineN], by rw [hstroke]; rfl, hf⟩, ?_, ?_⟩
      · intro l hl
        rcases List.mem_append.mp hl with hl | hl
        · exact le_trans (hbound l hl) hc_le
        · rw [List.mem_singleton.mp hl]
          exact hline_le
      · exact fwdChain_append stroke lineN hchain
          (fun a ha => le_trans (hbound a ha) hmin_line)
    refine ⟨?_, hU, fun _ => ⟨stroke ++ [lineN], rest, rfl, hnew⟩⟩
    intro t ht
    rcases List.mem_cons.mp ht with ht | ht
    · rw [ht]
      exact strokeMonotone_of_curOk _ _ _ hnew
    · exact hrest t ht
  | left =>
    rw [hdir] at hcur
    obtain ⟨⟨f, frest, hstroke, hf⟩, hbound, hchain⟩ := hcur
    simp only [hdir, reduceIte, reduceCtorEq]
    set c := rs.current.clampX with hcdef
    set lineN : LineX :=
      { start := { x := s.x ⊓ c, y := s.y }, stop := { x := e.x ⊓ c, y := e.y } }
      with hlineN
    set cN := c ⊓ (s.x ⊓ c ⊓ (e.x ⊓ c)) with hcN
    have hc_le : cN ≤ c := inf_le_left
    have hline_le : cN ≤ segMinX lineN := inf_le_right
    have hmax_line : segMaxX lineN ≤ c := sup_le inf_le_right inf_le_right
    have hnew : CurOkAux RecordDirection.left cN (stroke ++ [lineN]) := by
      refine ⟨⟨f, frest ++ [lineN], by rw [hstroke]; rfl, hf⟩, ?_, ?_⟩
      · intro l hl
        rcases List.mem_append.mp hl with hl | hl
        · exact le_trans hc_le (hbound l hl)
        · rw [List.mem_singleton.mp hl]
          exact hline_le
      · exact bwdChain_append stroke lineN hchain
          (fun a ha => le_trans hmax_line (hbound a ha))
    refine ⟨?_, hU, fun _ => ⟨stroke ++ [lineN], rest, rfl, hnew⟩⟩
    intro t ht
    rcases List.mem_cons.mp ht with ht | ht
    · rw [ht]
      exact strokeMonotone_of_curOk _ _ _ hnew
    · exact hrest t ht
  | undefined =>
    rw [hdir] at hcur
    subst hcur
    by_cases hlt : s.x < e.x
    · simp only [hdir, hlt, reduceIte, reduceCtorEq, if_true, List.nil_append]
      have h1 : s.x ⊔ (0 : WithTop ℚ) = s.x := sup_eq_left.mpr hs
      have h2 : e.x ⊔ (0 : WithTop ℚ) = e.x := sup_eq_left.mpr he
      rw [h1, h2]
      set lineN : LineX :=
        { start := { x := s.x, y := s.y }, stop := { x := e.x, y := e.y } }
        with hlineN
      set cN := (0 : WithTop ℚ) ⊔ (s.x ⊔ e.x) with hcN
      have hnew : CurOkAux RecordDirection.right cN [lineN] := by
        refine ⟨⟨lineN, [], rfl, hlt⟩, ?_, rfl⟩
        intro l hl
        rw [List.mem_singleton.mp hl]
        exact le_sup_right
      refine ⟨?_, hU, fun _ => ⟨[lineN], rest, rfl, hnew⟩⟩
      intro t ht
      rcases List.mem_cons.mp ht with ht | ht
      · rw [ht]
        exact strokeMonotone_of_curOk _ _ _ hnew
      · exact hrest t ht
    · simp only [hdir, hlt, reduceIte, reduceCtorEq, if_false, List.nil_append, inf_top_eq, top_inf_eq]
      set lineN : LineX :=
        { start := { x := s.x, y := s.y }, stop := { x := e.x, y := e.y } }
        with hlineN
      set cN := s.x ⊓ e.x with hcN
      have hnew : CurOkAux RecordDirection.left cN [lineN] := by
        refine ⟨⟨lineN, [], rfl, hlt⟩, ?_, rfl⟩
        intro l hl
        rw [List.mem_singleton.mp hl]
        exact le_refl _
      refine ⟨?_, hU, fun _ => ⟨[lineN], rest, rfl, hnew⟩⟩
      intro t ht
      rcases List.mem_cons.mp ht with ht | ht
      · rw [ht]
        exact strokeMonotone_of_curOk _ _ _ hnew
      · exact hrest t ht

/-- `new_record` re-establishes the invariant with a fresh context. -/
theorem new_record_inv (rs : RecordSystem) (ok : Bool) (h : RecInv rs ok) :
    RecInv rs.new_record true := by
  obtain ⟨hH, hU, _⟩ := h
  have hkeep : ∀ t ∈ (match rs.history with
      | [] :: rest => rest
      | h => h), strokeMonotone t = true := by
    intro t ht
    match hh : rs.history with
    | [] :: rest =>
        rw [hh] at ht
        exact hH t (by rw [hh]; exact List.mem_cons_of_mem _ ht)
    | [] => rw [hh] at ht; exact absurd ht (by simp)
    | (l :: ls) :: rest => rw [hh] at ht; exact hH t (by rw [hh]; exact ht)
  refine ⟨?_, by simp [RecordSystem.new_record], ?_⟩
  · intro t ht
    unfold RecordSystem.new_record at ht
    simp only [List.mem_cons] at ht
    rcases ht with ht | ht
    · rw [ht]; rfl
    · exact hkeep t ht
  · intro _
    refine ⟨[], _, rfl, ?_⟩
    exact rfl

/-- `undo` preserves monotonicity of all stored strokes. -/
theorem undo_inv (rs : RecordSystem) (ok : Bool) (h : RecInv rs ok) :
    RecInv rs.undo false := by
  obtain ⟨hH, hU, _⟩ := h
  unfold RecordSystem.undo
  match hh : rs.history with
  | [] => exact ⟨hH, hU, by simp⟩
  | s :: rest =>
    refine ⟨?_, ?_, by simp⟩
    · intro t ht
      exact hH t (by rw [hh]; exact List.mem_cons_of_mem _ ht)
    · intro t ht
      simp only [List.mem_cons] at ht
      rcases ht with ht | ht
      · rw [ht]; exact hH s (by rw [hh]; exact List.mem_cons_self _ _)
      · exact hU t ht

/-- `redo` preserves monotonicity of all stored strokes. -/
theorem redo_inv (rs : RecordSystem) (ok : Bool) (h : RecInv rs ok) :
    RecInv rs.redo false := by
  obtain ⟨hH, hU, _⟩ := h
  unfold RecordSystem.redo
  match hh : rs.undoHistory with
  | [] => exact ⟨hH, hU, by simp⟩
  | s :: rest =>
    refine ⟨?_, ?_, by simp⟩
    · intro t ht
      simp only [List.mem_cons] at ht
      rcases ht with ht | ht
      · rw [ht]; exact hU s (by rw [hh]; exact List.mem_cons_self _ _)
      · exact hH t ht
    · intro t ht
      exact hU t (by rw [hh]; exact List.mem_cons_of_mem _ ht)

/-- Context freshness after one call: start-stroke makes the context fresh,
add-segment keeps it as it was, undo/redo leave a context belonging to a
stroke that is no longer (or not necessarily) the head of the history. -/
def stepOk (ok : Bool) : Op → Bool
  | .newRecord => true
  | .addLine _ _ => ok
  | .undo => false
  | .redo => false

/-- Context freshness after a call sequence. -/
def finalOk (ok : Bool) : List Op → Bool
  | [] => ok
  | op :: rest => finalOk (stepOk ok op) rest

/-- Well-formedness of a call sequence starting with context freshness
`ok`: every add-segment happens while the context is fresh (its most recent
context-changing predecessor is a start-stroke) and has nonnegative input
x-coordinates. -/
def wfAux (ok : Bool) : List Op → Bool
  | [] => true
  | Op.newRecord :: rest => wfAux true rest
  | Op.addLine s e :: rest =>
      ok && decide ((0 : WithTop ℚ) ≤ s.x) && decide ((0 : WithTop ℚ) ≤ e.x) &&
        wfAux ok rest
  | Op.undo :: rest => wfAux false rest
  | Op.redo :: rest => wfAux false rest

/-- Well-formedness of a call sequence from the initial recorder. -/
def wellFormedOps (ops : List Op) : Bool := wfAux false ops

/-- The invariant is preserved along any well-formed call sequence. -/
theorem execFrom_inv : ∀ (ops : List Op) (rs : RecordSystem) (ok : Bool),
    wfAux ok ops = true → RecInv rs ok →
    RecInv (execFrom rs ops) (finalOk ok ops)
  | [], rs, ok, _, hInv => hInv
  | Op.newRecord :: rest, rs, ok, hwf, hInv => by
      have hwf' : wfAux true rest = true := by simpa [wfAux] using hwf
      exact execFrom_inv rest _ _ hwf' (new_record_inv rs ok hInv)
  | Op.addLine s e :: rest, rs, ok, hwf, hInv => by
      simp only [wfAux, Bool.and_eq_true, decide_eq_true_eq] at hwf
      obtain ⟨⟨⟨hok, hs⟩, he⟩, hwf'⟩ := hwf
      subst hok
      exact execFrom_inv rest _ _ hwf' (add_line_inv rs s e hInv hs he)
  | Op.undo :: rest, rs, ok, hwf, hInv => by
      have hwf' : wfAux false rest = true := by simpa [wfAux] using hwf
      exact execFrom_inv rest _ _ hwf' (undo_inv rs ok hInv)
  | Op.redo :: rest, rs, ok, hwf, hInv => by
      have hwf' : wfAux false rest = true := by simpa [wfAux] using hwf
      exact execFrom_inv rest _ _ hwf' (redo_inv rs ok hInv)

/-- The initial recorder satisfies the invariant (with a stale context). -/
theorem init_inv : RecInv RecordSystem.init false :=
  ⟨by intro t ht; exact absurd ht (by simp [RecordSystem.init]),
   by intro t ht; exact absurd ht (by simp [RecordSystem.init]),
   by intro h; exact absurd h (by simp)⟩

/-- C2 amended: along every well-formed call sequence — one in which every
add-segment call happens under the record context of the stroke it
extends (no undo/redo since the last start-stroke) and has nonnegative
input x-coordinates — every stroke stored in the history is monotone: its
segments' x-extents never regress against the running frontier. -/
theorem strokes_monotone_of_wellFormed (ops : List Op)
    (h : wellFormedOps ops = true) :
    ∀ s ∈ (execOps ops).history, strokeMonotone s = true :=
  (execFrom_inv ops RecordSystem.init false h init_inv).1

/-- A concrete well-formed call sequence for the witness. -/
def c2WitnessOps : List Op :=
  [Op.newRecord,
   Op.addLine { x := 0, y := 0 } { x := 1, y := 0 },
   Op.addLine { x := 2, y := 1 } { x := 3, y := 1 },
   Op.undo, Op.redo, Op.newRecord,
   Op.addLine { x := 7, y := 0 } { x := 4, y := 0 }]

/-- Witness for the amended C2 at a concrete call sequence. -/
theorem strokes_monotone_of_wellFormed_witness :
    wellFormedOps c2WitnessOps = true ∧
    strokeMonotone ((execOps c2WitnessOps).history.headD []) = true :=
  ⟨by decide,
   strokes_monotone_of_wellFormed c2WitnessOps (by decide) _ (by decide)⟩

/-! ### Canvas rasterizer model (src/paint.rs, `Canvas`)

The canvas works on finite normalized coordinates, modelled as `ℚ`. -/
structure Pt where
  x : ℚ
  y : ℚ
deriving DecidableEq

/-- A segment handed to the rasterizer (`Line` in paint.rs). -/
structure Line where
  start : Pt
  stop : Pt
deriving DecidableEq

/-- `Canvas` from paint.rs, restricted to the fields the rasterization
claims are about: the bitmap (`data`, row-major, one byte per pixel), its
dimensions, the stroke history replayed by `resize`, and the dirty flag.
The GL texture handle, the undo stack and the record context are not
touched by `draw_line`/`resize` and are omitted.  As with the recorder,
`history`'s outer list is ordered with the most recent stroke first; the
replay order of segments is preserved. -/
structure Canvas where
  width : ℕ
  height : ℕ
  data : List ℕ
  history : List (List Line)
  dirty : Bool
deriving DecidableEq

/-- `self.data[self.id(x, y)] = 255`: `id` computes `y * width + x`.  The
loop coordinates are `i32`; a negative coordinate is cast to a huge
`usize`, so any negative coordinate or out-of-range index is a Rust panic,
modelled as `none`. -/
def Canvas.setPixel (c : Canvas) (x y : ℤ) : Option Canvas :=
  if 0 ≤ x ∧ 0 ≤ y ∧ y.toNat * c.width + x.toNat < c.data.length then
    some { c with data := c.data.set (y.toNat * c.width + x.toNat) 255 }
  else none

/-- The Bresenham loop of `Canvas::draw_line`: plot the current pixel,
stop when the end pixel is reached, otherwise advance `x` and/or `y`
according to the doubled error accumulator.  `fuel` bounds the number of
iterations; running out of fuel models divergence (`none`). -/
def bresLoop (ex ey dx dy sx sy : ℤ) : ℕ → ℤ → ℤ → ℤ → Canvas → Option Canvas
  | 0, _, _, _, _ => none
  | fuel + 1, x, y, err, c =>
    match c.setPixel x y with
    | none => none
    | some c1 =>
      if x = ex ∧ y = ey then some c1
      else
        let e2 := 2 * err
        let err1 := if e2 > -dy then err - dy else err
        let x1 := if e2 > -dy then x + sx else x
        let err2 := if e2 < dx then err1 + dx else err1
        let y1 := if e2 < dx then y + sy else y
        bresLoop ex ey dx dy sx sy fuel x1 y1 err2 c1

/-- `Canvas::draw_line`: reject (no-op) any segment with an endpoint
coordinate below 0 or at least 1; otherwise scale the endpoints by the
bitmap dimensions, truncate to pixel coordinates, run the Bresenham loop,
and set the dirty flag.  The fuel `|dx| + |dy| + 1` is exactly the number
of iterations the loop needs (proved below); `none` models a panic or
divergence of the loop. -/
def Canvas.draw_line (c : Canvas) (l : Line) : Option Canvas :=
  if l.start.x < 0 ∨ l.start.y < 0 ∨ l.stop.x < 0 ∨ l.stop.y < 0 then some c
  else if 1 ≤ l.start.x ∨ 1 ≤ l.start.y ∨ 1 ≤ l.stop.x ∨ 1 ≤ l.stop.y then some c
  else
    let x0 := ⌊l.start.x * (c.width : ℚ)⌋
    let y0 := ⌊l.start.y * (c.height : ℚ)⌋
    let ex := ⌊l.stop.x * (c.width : ℚ)⌋
    let ey := ⌊l.stop.y * (c.height : ℚ)⌋
    let dx := |ex - x0|
    let dy := |ey - y0|
    let sx := (ex - x0).sign
    let sy := (ey - y0).sign
    match bresLoop ex ey dx dy sx sy (dx.toNat + dy.toNat + 1) x0 y0 (dx - dy) c with
    | none => none
    | some c1 => some { c1 with dirty := true }

/-- Draw every segment of one stroke in order. -/
def Canvas.drawStroke : Canvas → List Line → Option Canvas
  | c, [] => some c
  | c, l :: rest =>
    match c.draw_line l with
    | none => none
    | some c1 => Canvas.drawStroke c1 rest

/-- Draw every stroke of a history in order. -/
def Canvas.drawStrokes : Canvas → List (List Line) → Option Canvas
  | c, [] => some c
  | c, s :: rest =>
    match c.drawStroke s with
    | none => none
    | some c1 => Canvas.drawStrokes c1 rest

/-- `Canvas::resize`: install the new dimensions, reallocate and clear the
bitmap, set the dirty flag, and replay every segment of every stroke of
the history through `draw_line`. -/
def Canvas.resize (c : Canvas) (w h : ℕ) : Option Canvas :=
  Canvas.drawStrokes
    { c with width := w, height := h,
             data := List.replicate (w * h) 0, dirty := true }
    c.history

/-! ### Claim C8: out-of-range segments are dropped wholesale -/

/-- C8: `draw_line` is a no-op whenever any endpoint coordinate is below 0
or at least 1 on either axis: the segment is dropped, no pixel changes and
the dirty flag is unchanged (the canvas is returned exactly as it was). -/
theorem draw_line_out_of_range (c : Canvas) (l : Line)
    (h : (l.start.x < 0 ∨ l.start.y < 0 ∨ l.stop.x < 0 ∨ l.stop.y < 0) ∨
         (1 ≤ l.start.x ∨ 1 ≤ l.start.y ∨ 1 ≤ l.stop.x ∨ 1 ≤ l.stop.y)) :
    c.draw_line l = some c := by
  unfold Canvas.draw_line
  rcases h with h | h
  · rw [if_pos h]
  · by_cases h0 : l.start.x < 0 ∨ l.start.y < 0 ∨ l.stop.x < 0 ∨ l.stop.y < 0
    · rw [if_pos h0]
    · rw [if_neg h0, if_pos h]

/-- Witness for C8 at a concrete out-of-range segment. -/
theorem draw_line_out_of_range_witness :
    ((({ start := { x := -1, y := 0 }, stop := { x := 1/2, y := 1/2 } } : Line).start.x < 0 ∨
      ({ start := { x := -1, y := 0 }, stop := { x := 1/2, y := 1/2 } } : Line).start.y < 0 ∨
      ({ start := { x := -1, y := 0 }, stop := { x := 1/2, y := 1/2 } } : Line).stop.x < 0 ∨
      ({ start := { x := -1, y := 0 }, stop := { x := 1/2, y := 1/2 } } : Line).stop.y < 0) ∨
     (1 ≤ ({ start := { x := -1, y := 0 }, stop := { x := 1/2, y := 1/2 } } : Line).start.x ∨
      1 ≤ ({ start := { x := -1, y := 0 }, stop := { x := 1/2, y := 1/2 } } : Line).start.y ∨
      1 ≤ ({ start := { x := -1, y := 0 }, stop := { x := 1/2, y := 1/2 } } : Line).stop.x ∨
      1 ≤ ({ start := { x := -1, y := 0 }, stop := { x := 1/2, y := 1/2 } } : Line).stop.y)) ∧
    Canvas.draw_line
      { width := 2, height := 2, data := [0, 0, 0, 0], history := [], dirty := false }
      { start := { x := -1, y := 0 }, stop := { x := 1/2, y := 1/2 } } =
      some { width := 2, height := 2, data := [0, 0, 0, 0], history := [], dirty := false } :=
  ⟨by norm_num, draw_line_out_of_range _ _ (by norm_num)⟩

/-! ### Claim C5: resize replay reproduces the bitmap -/

/-- `setPixel` only touches the bitmap. -/
theorem setPixel_history (c c1 : Canvas) (x y : ℤ)
    (h : c.setPixel x y = some c1) : c1.history = c.history := by
  unfold Canvas.setPixel at h
  split at h
  · cases h
    rfl
  · cases h

/-- The Bresenham loop only touches the bitmap. -/
theorem bresLoop_history : ∀ (fuel : ℕ) (ex ey dx dy sx sy x y err : ℤ)
    (c c1 : Canvas), bresLoop ex ey dx dy sx sy fuel x y err c = some c1 →
    c1.history = c.history
  | 0, _, _, _, _, _, _, _, _, _, _, _, h => by cases h
  | fuel + 1, ex, ey, dx, dy, sx, sy, x, y, err, c, c1, h => by
    unfold bresLoop at h
    match hp : c.setPixel x y with
    | none => rw [hp] at h; cases h
    | some cp =>
      rw [hp] at h
      dsimp only [] at h
      have hph := setPixel_history c cp x y hp
      by_cases hend : x = ex ∧ y = ey
      · rw [if_pos hend] at h
        cases h
        exact hph
      · rw [if_neg hend] at h
        have := bresLoop_history fuel ex ey dx dy sx sy _ _ _ cp c1 h
        rw [this, hph]

/-- `draw_line` only touches the bitmap and the dirty flag. -/
theorem draw_line_history (c c1 : Canvas) (l : Line)
    (h : c.draw_line l = some c1) : c1.history = c.history := by
  unfold Canvas.draw_line at h
  split at h
  · cases h
    rfl
  · split at h
    · cases h
      rfl
    · dsimp only [] at h
      split at h
      · cases h
      · rename_i cb hb
        cases h
        exact bresLoop_history _ _ _ _ _ _ _ _ _ _ c cb hb

/-- Replaying a stroke only touches the bitmap and the dirty flag. -/
theorem drawStroke_history : ∀ (ls : List Line) (c c1 : Canvas),
    Canvas.drawStroke c ls = some c1 → c1.history = c.history
  | [], c, c1, h => by cases h; rfl
  | l :: rest, c, c1, h => by
    unfold Canvas.drawStroke at h
    match hd : c.draw_line l with
    | none => rw [hd] at h; cases h
    | some cd =>
      rw [hd] at h
      have := drawStroke_history rest cd c1 h
      rw [this, draw_line_history c cd l hd]

/-- Replaying a history only touches the bitmap and the dirty flag. -/
theorem drawStrokes_history : ∀ (ss : List (List Line)) (c c1 : Canvas),
    Canvas.drawStrokes c ss = some c1 → c1.history = c.history
  | [], c, c1, h => by cases h; rfl
  | s :: rest, c, c1, h => by
    unfold Canvas.drawStrokes at h
    match hd : c.drawStroke s with
    | none => rw [hd] at h; cases h
    | some cd =>
      rw [hd] at h
      have := drawStrokes_history rest cd c1 h
      rw [this, drawStroke_history s c cd hd]

/-- `resize` preserves the stroke history. -/
theorem resize_history (c c1 : Canvas) (w h : ℕ)
    (hr : c.resize w h = some c1) : c1.history = c.history := by
  unfold Canvas.resize at hr
  have h2 := drawStrokes_history c.history _ c1 hr
  exact h2

/-- The outcome of `resize` is a function of the history and the target
resolution alone: the bitmap is cleared and rebuilt from scratch. -/
theorem resize_congr (c d : Canvas) (w h : ℕ) (hh : c.history = d.history) :
    c.resize w h = d.resize w h := by
  unfold Canvas.resize
  rw [hh]

/-- C5: rasterizing a history at resolution A, resizing to resolution B
and then resizing back to A reproduces the resolution-A canvas (in
particular its bitmap) exactly. -/
theorem resize_roundtrip (c c1 c2 : Canvas) (wA hA wB hB : ℕ)
    (h1 : c.resize wA hA = some c1) (h2 : c1.resize wB hB = some c2) :
    c2.resize wA hA = some c1 := by
  have e1 : c1.history = c.history := resize_history c c1 wA hA h1
  have e2 : c2.history = c1.history := resize_history c1 c2 wB hB h2
  rw [resize_congr c2 c wA hA (by rw [e2, e1]), h1]

/-- A concrete canvas with one recorded diagonal stroke, used as the C5
witness input. -/
def cW5 : Canvas :=
  { width := 2, height := 2, data := [0, 0, 0, 0],
    history := [[{ start := { x := 0, y := 0 }, stop := { x := 1/2, y := 1/2 } }]],
    dirty := false }

/-- The cW5 canvas rendered at resolution 2x2. -/
def cW5a : Canvas :=
  { width := 2, height := 2, data := [255, 0, 0, 255],
    history := cW5.history, dirty := true }

/-- The cW5 canvas rendered at resolution 1x1. -/
def cW5b : Canvas :=
  { width := 1, height := 1, data := [255],
    history := cW5.history, dirty := true }

/-- Witness for C5 at a concrete canvas and resolution pair. -/
theorem resize_roundtrip_witness :
    cW5.resize 2 2 = some cW5a ∧ cW5a.resize 1 1 = some cW5b ∧
    cW5b.resize 2 2 = some cW5a :=
  ⟨by norm_num [Canvas.resize, Canvas.drawStrokes, Canvas.drawStroke,
      Canvas.draw_line, bresLoop, Canvas.setPixel, cW5, cW5a, List.replicate],
   by norm_num [Canvas.resize, Canvas.drawStrokes, Canvas.drawStroke,
      Canvas.draw_line, bresLoop, Canvas.setPixel, cW5, cW5a, cW5b, List.replicate],
   resize_roundtrip cW5 cW5a cW5b 2 2 1 1
     (by norm_num [Canvas.resize, Canvas.drawStrokes, Canvas.drawStroke,
        Canvas.draw_line, bresLoop, Canvas.setPixel, cW5, cW5a, List.replicate])
     (by norm_num [Canvas.resize, Canvas.drawStrokes, Canvas.drawStroke,
        Canvas.draw_line, bresLoop, Canvas.setPixel, cW5, cW5a, cW5b, List.replicate])⟩

/-! ### Claim C10: the Bresenham loop terminates and stays in bounds -/

/-- Walking `u` unit steps from `x0` in the direction of `ex` stays between
`x0` and `ex` as long as `u` does not exceed their distance. -/
theorem sign_step_bounds (x0 ex : ℤ) (u : ℕ) (hu : u ≤ (ex - x0).natAbs) :
    min x0 ex ≤ x0 + (ex - x0).sign * u ∧ x0 + (ex - x0).sign * u ≤ max x0 ex := by
  rcases lt_trichotomy x0 ex with h | h | h
  · have hs : (ex - x0).sign = 1 := Int.sign_eq_one_of_pos (by linarith)
    have hn : ((ex - x0).natAbs : ℤ) = ex - x0 := Int.natAbs_of_nonneg (by linarith)
    have hucast : (u : ℤ) ≤ ex - x0 := by
      rw [← hn]
      exact_mod_cast hu
    rw [hs, min_eq_left h.le, max_eq_right h.le]
    constructor <;> linarith [Int.ofNat_nonneg u]
  · subst h
    simp
  · have hs : (ex - x0).sign = -1 := Int.sign_eq_neg_one_of_neg (by linarith)
    have hn : ((ex - x0).natAbs : ℤ) = -(ex - x0) := by
      rw [← Int.natAbs_neg]
      exact Int.natAbs_of_nonneg (by linarith)
    have hucast : (u : ℤ) ≤ -(ex - x0) := by
      rw [← hn]
      exact_mod_cast hu
    rw [hs, min_eq_right h.le, max_eq_left h.le]
    constructor <;> linarith [Int.ofNat_nonneg u]

/-- Walking the full distance lands exactly on `ex`. -/
theorem sign_step_end (x0 ex : ℤ) :
    x0 + (ex - x0).sign * ((ex - x0).natAbs : ℤ) = ex := by
  have h := Int.sign_mul_natAbs (ex - x0)
  linarith

/-- The Bresenham loop, started anywhere on its ideal path with the
matching error accumulator and enough fuel, terminates successfully (no
out-of-bounds write, end pixel reached) provided both endpoints' pixel
coordinates lie inside the bitmap.  `u` and `v` are the numbers of x- and
y-steps already taken. -/
theorem bresLoop_some (fuel : ℕ) : ∀ (w h : ℕ) (x0 y0 ex ey : ℤ)
    (u v : ℕ) (c : Canvas) (x y err : ℤ),
    0 ≤ x0 → x0 < (w : ℤ) → 0 ≤ y0 → y0 < (h : ℤ) →
    0 ≤ ex → ex < (w : ℤ) → 0 ≤ ey → ey < (h : ℤ) →
    c.width = w → c.height = h → c.data.length = w * h →
    x = x0 + (ex - x0).sign * u →
    y = y0 + (ey - y0).sign * v →
    u ≤ (ex - x0).natAbs → v ≤ (ey - y0).natAbs →
    err = |ex - x0| - |ey - y0| - (u : ℤ) * |ey - y0| + (v : ℤ) * |ex - x0| →
    ((ex - x0).natAbs - u) + ((ey - y0).natAbs - v) < fuel →
    ∃ c1, bresLoop ex ey |ex - x0| |ey - y0| (ex - x0).sign (ey - y0).sign
        fuel x y err c = some c1 ∧
      c1.width = w ∧ c1.height = h ∧ c1.data.length = w * h := by
  induction fuel with
  | zero =>
    intro w h x0 y0 ex ey u v c x y err _ _ _ _ _ _ _ _ _ _ _ _ _ _ _ _ hfuel
    omega
  | succ fuel ih =>
    intro w h x0 y0 ex ey u v c x y err hx0l hx0u hy0l hy0u hexl hexu heyl heyu
      hcw hch hcd hxu hyv hu hv herr hfuel
    obtain ⟨hxl', hxu'⟩ := sign_step_bounds x0 ex u hu
    obtain ⟨hyl', hyu'⟩ := sign_step_bounds y0 ey v hv
    rw [← hxu] at hxl' hxu'
    rw [← hyv] at hyl' hyu'
    have hx_lb : 0 ≤ x := le_trans (le_min hx0l hexl) hxl'
    have hx_ub : x < (w : ℤ) := lt_of_le_of_lt hxu' (max_lt hx0u hexu)
    have hy_lb : 0 ≤ y := le_trans (le_min hy0l heyl) hyl'
    have hy_ub : y < (h : ℤ) := lt_of_le_of_lt hyu' (max_lt hy0u heyu)
    have hidx : y.toNat * c.width + x.toNat < c.data.length := by
      rw [hcw, hcd]
      have hxn : x.toNat < w := by omega
      have hyn : y.toNat < h := by omega
      calc y.toNat * w + x.toNat < y.toNat * w + w := by omega
        _ = (y.toNat + 1) * w := by ring
        _ ≤ h * w := Nat.mul_le_mul_right w (by omega)
        _ = w * h := Nat.mul_comm h w
    have hset : c.setPixel x y =
        some { c with data := c.data.set (y.toNat * c.width + x.toNat) 255 } := by
      unfold Canvas.setPixel
      rw [if_pos ⟨hx_lb, hy_lb, hidx⟩]
    have hdxcast : (((ex - x0).natAbs : ℕ) : ℤ) = |ex - x0| :=
      (Int.abs_eq_natAbs _).symm
    have hdycast : (((ey - y0).natAbs : ℕ) : ℤ) = |ey - y0| :=
      (Int.abs_eq_natAbs _).symm
    have hdx0 : (0 : ℤ) ≤ |ex - x0| := abs_nonneg _
    have hdy0 : (0 : ℤ) ≤ |ey - y0| := abs_nonneg _
    unfold bresLoop
    rw [hset]
    dsimp only []
    by_cases hend : x = ex ∧ y = ey
    · rw [if_pos hend]
      refine ⟨_, rfl, hcw, hch, ?_⟩
      simpa [List.length_set] using hcd
    · rw [if_neg hend]
      have hone : u < (ex - x0).natAbs ∨ v < (ey - y0).natAbs := by
        by_contra hcon
        push_neg at hcon
        have hu' : u = (ex - x0).natAbs := le_antisymm hu hcon.1
        have hv' : v = (ey - y0).natAbs := le_antisymm hv hcon.2
        apply hend
        constructor
        · rw [hxu, hu']
          exact sign_step_end x0 ex
        · rw [hyv, hv']
          exact sign_step_end y0 ey
      have hufire : 2 * err > -|ey - y0| → u < (ex - x0).natAbs := by
        intro hfire
        rcases Nat.lt_or_ge u (ex - x0).natAbs with h' | h'
        · exact h'
        · exfalso
          have hu' : u = (ex - x0).natAbs := le_antisymm hu h'
          have hv' : v < (ey - y0).natAbs := by
            rcases hone with h2 | h2
            · omega
            · exact h2
          have hvdy : (v : ℤ) + 1 ≤ |ey - y0| := by
            rw [← hdycast]
            exact_mod_cast hv'
          have hucast : (u : ℤ) = |ex - x0| := by rw [hu', hdxcast]
          have hkey : (0 : ℤ) ≤ |ex - x0| * (|ey - y0| - 1 - v) :=
            mul_nonneg hdx0 (by linarith)
          have hle : 2 * err ≤ -|ey - y0| := by
            rw [herr, hucast]
            linarith [hkey]
          linarith
      have hvfire : 2 * err < |ex - x0| → v < (ey - y0).natAbs := by
        intro hfire
        rcases Nat.lt_or_ge v (ey - y0).natAbs with h' | h'
        · exact h'
        · exfalso
          have hv' : v = (ey - y0).natAbs := le_antisymm hv h'
          have hu' : u < (ex - x0).natAbs := by
            rcases hone with h2 | h2
            · exact h2
            · omega
          have hudx : (u : ℤ) + 1 ≤ |ex - x0| := by
            rw [← hdxcast]
            exact_mod_cast hu'
          have hvcast : (v : ℤ) = |ey - y0| := by rw [hv', hdycast]
          have hkey : (0 : ℤ) ≤ |ey - y0| * (|ex - x0| - 1 - u) :=
            mul_nonneg hdy0 (by linarith)
          have hge : |ex - x0| ≤ 2 * err := by
            rw [herr, hvcast]
            linarith [hkey]
          linarith
      by_cases hbx : 2 * err > -|ey - y0|
      · have huN : u < (ex - x0).natAbs := hufire hbx
        by_cases hby : 2 * err < |ex - x0|
        · have hvN : v < (ey - y0).natAbs := hvfire hby
          rw [if_pos hbx, if_pos hbx, if_pos hby, if_pos hby]
          refine ih w h x0 y0 ex ey (u + 1) (v + 1) _ _ _ _
            hx0l hx0u hy0l hy0u hexl hexu heyl heyu ?_ ?_ ?_ ?_ ?_ ?_ ?_ ?_ ?_
          · exact hcw
          · exact hch
          · simpa [List.length_set] using hcd
          · rw [hxu]
            push_cast
            ring
          · rw [hyv]
            push_cast
            ring
          · omega
          · omega
          · rw [herr]
            push_cast
            ring
          · omega
        · rw [if_pos hbx, if_pos hbx, if_neg hby, if_neg hby]
          refine ih w h x0 y0 ex ey (u + 1) v _ _ _ _
            hx0l hx0u hy0l hy0u hexl hexu heyl heyu ?_ ?_ ?_ ?_ ?_ ?_ ?_ ?_ ?_
          · exact hcw
          · exact hch
          · simpa [List.length_set] using hcd
          · rw [hxu]
            push_cast
            ring
          · exact hyv
          · omega
          · exact hv
          · rw [herr]
            push_cast
            ring
          · omega
      · by_cases hby : 2 * err < |ex - x0|
        · have hvN : v < (ey - y0).natAbs := hvfire hby
          rw [if_neg hbx, if_neg hbx, if_pos hby, if_pos hby]
          refine ih w h x0 y0 ex ey u (v + 1) _ _ _ _
            hx0l hx0u hy0l hy0u hexl hexu heyl heyu ?_ ?_ ?_ ?_ ?_ ?_ ?_ ?_ ?_
          · exact hcw
          · exact hch
          · simpa [List.length_set] using hcd
          · exact hxu
          · rw [hyv]
            push_cast
            ring
          · exact hu
          · omega
          · rw [herr]
            push_cast
            ring
          · omega
        · exfalso
          push_neg at hbx hby
          have hdxz : |ex - x0| = 0 := by linarith
          have hdyz : |ey - y0| = 0 := by linarith
          have hex : ex = x0 := by
            have h1 : ex - x0 = 0 := abs_eq_zero.mp hdxz
            omega
          have hey : ey = y0 := by
            have h1 : ey - y0 = 0 := abs_eq_zero.mp hdyz
            omega
          have huz : u = 0 := by
            have h1 : (ex - x0).natAbs = 0 := by
              rw [Int.natAbs_eq_zero]
              omega
            omega
          have hvz : v = 0 := by
            have h1 : (ey - y0).natAbs = 0 := by
              rw [Int.natAbs_eq_zero]
              omega
            omega
          apply hend
          constructor
          · rw [hxu, huz, hex]
            simp
          · rw [hyv, hvz, hey]
            simp

/-- C10: if both endpoints lie in `[0,1)` on both axes and the bitmap is at
least 1x1 with a data array of size width*height, `draw_line` terminates
(the Bresenham loop reaches the end pixel within its fuel) and every pixel
write stays inside the data array, so no panic occurs. -/
theorem draw_line_in_bounds (c : Canvas) (l : Line)
    (hw : 1 ≤ c.width) (hh : 1 ≤ c.height)
    (hd : c.data.length = c.width * c.height)
    (h1 : 0 ≤ l.start.x) (h2 : l.start.x < 1)
    (h3 : 0 ≤ l.start.y) (h4 : l.start.y < 1)
    (h5 : 0 ≤ l.stop.x) (h6 : l.stop.x < 1)
    (h7 : 0 ≤ l.stop.y) (h8 : l.stop.y < 1) :
    ∃ c1, c.draw_line l = some c1 := by
  have pixel_lb : ∀ (q : ℚ) (n : ℕ), 0 ≤ q → (0 : ℤ) ≤ ⌊q * (n : ℚ)⌋ :=
    fun q n hq => Int.floor_nonneg.mpr (mul_nonneg hq (by positivity))
  have pixel_ub : ∀ (q : ℚ) (n : ℕ), q < 1 → 1 ≤ n → ⌊q * (n : ℚ)⌋ < (n : ℤ) := by
    intro q n hq hn
    rw [Int.floor_lt]
    push_cast
    have hn0 : (0 : ℚ) < (n : ℚ) := by exact_mod_cast Nat.lt_of_lt_of_le Nat.zero_lt_one hn
    calc q * (n : ℚ) < 1 * (n : ℚ) := by exact mul_lt_mul_of_pos_right hq hn0
      _ = (n : ℚ) := one_mul _
  have habs : ∀ a : ℤ, |a|.toNat = a.natAbs := by
    intro a
    rw [Int.abs_eq_natAbs]
    exact Int.toNat_natCast _
  unfold Canvas.draw_line
  rw [if_neg (by push_neg; exact ⟨not_lt.mp (not_lt.mpr h1), not_lt.mp (not_lt.mpr h3),
        not_lt.mp (not_lt.mpr h5), not_lt.mp (not_lt.mpr h7)⟩)]
  rw [if_neg (by push_neg; exact ⟨h2, h4, h6, h8⟩)]
  dsimp only []
  obtain ⟨c1, hc1, -, -, -⟩ :=
    bresLoop_some
      (|⌊l.stop.x * (c.width : ℚ)⌋ - ⌊l.start.x * (c.width : ℚ)⌋|.toNat +
       |⌊l.stop.y * (c.height : ℚ)⌋ - ⌊l.start.y * (c.height : ℚ)⌋|.toNat + 1)
      c.width c.height
      ⌊l.start.x * (c.width : ℚ)⌋ ⌊l.start.y * (c.height : ℚ)⌋
      ⌊l.stop.x * (c.width : ℚ)⌋ ⌊l.stop.y * (c.height : ℚ)⌋
      0 0 c
      ⌊l.start.x * (c.width : ℚ)⌋ ⌊l.start.y * (c.height : ℚ)⌋
      (|⌊l.stop.x * (c.width : ℚ)⌋ - ⌊l.start.x * (c.width : ℚ)⌋| -
       |⌊l.stop.y * (c.height : ℚ)⌋ - ⌊l.start.y * (c.height : ℚ)⌋|)
      (pixel_lb _ _ h1) (pixel_ub _ _ h2 hw)
      (pixel_lb _ _ h3) (pixel_ub _ _ h4 hh)
      (pixel_lb _ _ h5) (pixel_ub _ _ h6 hw)
      (pixel_lb _ _ h7) (pixel_ub _ _ h8 hh)
      rfl rfl hd
      (by simp) (by simp) (Nat.zero_le _) (Nat.zero_le _)
      (by push_cast; ring)
      (by rw [habs, habs]; omega)
  rw [hc1]
  exact ⟨_, rfl⟩

/-- The in-bounds segment used as the C10 witness input. -/
def lW10 : Line := { start := { x := 0, y := 0 }, stop := { x := 1/2, y := 1/2 } }

/-- Witness for C10 at a concrete canvas and in-bounds segment. -/
theorem draw_line_in_bounds_witness :
    (1 ≤ cW5.width ∧ 1 ≤ cW5.height ∧ cW5.data.length = cW5.width * cW5.height ∧
     0 ≤ lW10.start.x ∧ lW10.start.x < 1 ∧ 0 ≤ lW10.start.y ∧ lW10.start.y < 1 ∧
     0 ≤ lW10.stop.x ∧ lW10.stop.x < 1 ∧ 0 ≤ lW10.stop.y ∧ lW10.stop.y < 1) ∧
    ∃ c1, cW5.draw_line lW10 = some c1 :=
  ⟨by norm_num [cW5, lW10],
   draw_line_in_bounds cW5 lW10 (by norm_num [cW5]) (by norm_num [cW5])
     (by norm_num [cW5]) (by norm_num [lW10]) (by norm_num [lW10])
     (by norm_num [lW10]) (by norm_num [lW10]) (by norm_num [lW10])
     (by norm_num [lW10]) (by norm_num [lW10]) (by norm_num [lW10])⟩

/-! ### Audio synthesizer model (src/timeline.rs)

Audio state uses real numbers: the oscillator evaluates `sin`, the mixer
`sqrt`.  `f32` arithmetic is modelled exactly over `ℝ`. -/
structure Tone where
  frequency : ℝ
  amplitude : ℝ

/-- `ToneSamples` from timeline.rs: one stroke's envelope (`samples`),
its cursor `i` and the oscillator phase `time`. -/
structure ToneSamples where
  samples : List Tone
  i : ℕ
  time : ℝ

/-- `ToneSamples::last_amplitude`: `self.samples[self.i].amplitude`;
indexing out of bounds is a Rust panic, modelled as `none`. -/
def ToneSamples.lastAmplitude (ts : ToneSamples) : Option ℝ :=
  (ts.samples.get? ts.i).map Tone.amplitude

/-- `ToneSamples::get_sample`: `sin(self.time)`. -/
noncomputable def ToneSamples.get_sample (ts : ToneSamples) : ℝ :=
  Real.sin ts.time

/-- `ToneSamples::next` (the `Iterator` impl in timeline.rs): read the
tone under the cursor (panic if out of bounds — `none`), compute the
sample, advance the cursor; once the cursor would leave the envelope, pin
it to the last index and signal exhaustion (`some (_, none)`); otherwise
advance the phase continuously and emit the sample. -/
noncomputable def ToneSamples.next (ts : ToneSamples) :
    Option (ToneSamples × Option ℝ) :=
  match ts.samples.get? ts.i with
  | none => none
  | some tone =>
    if ts.samples.length ≤ ts.i + 1 then
      some ({ ts with i := ts.samples.length - 1 }, none)
    else
      some
        ({ samples := ts.samples, i := ts.i + 1,
           time := ts.time + 2 * Real.pi * tone.frequency / 44100 },
         some (ts.get_sample * tone.amplitude))

/-- `PlayerSource` from timeline.rs. -/
structure PlayerSource where
  sample_rate : ℕ
  tones_samples : List ToneSamples

/-- The stroke loop inside `PlayerSource::next`, threading the partial
sums (`sample`, `accumulated_amplitude`) and the `no_more_samples` flag
through the stroke list exactly as the Rust `for` loop does.  For each
stroke that still yields a sample, the sample is added and
`last_amplitude()` — read at the already-advanced cursor — is accumulated. -/
noncomputable def PlayerSource.nextAux :
    List ToneSamples → ℝ → ℝ → Bool → Option (List ToneSamples × ℝ × ℝ × Bool)
  | [], sample, acc, noMore => some ([], sample, acc, noMore)
  | ts :: rest, sample, acc, noMore =>
    match ts.next with
    | none => none
    | some (ts1, none) =>
      match PlayerSource.nextAux rest sample acc noMore with
      | none => none
      | some (l, s2, a2, nm) => some (ts1 :: l, s2, a2, nm)
    | some (ts1, some s) =>
      match ts1.lastAmplitude with
      | none => none
      | some a =>
        match PlayerSource.nextAux rest (sample + s) (acc + a) false with
        | none => none
        | some (l, s2, a2, nm) => some (ts1 :: l, s2, a2, nm)

/-- `PlayerSource::next` (timeline.rs): run the stroke loop; if no stroke
yielded a sample, signal exhaustion; otherwise divide the summed sample by
the square root of the accumulated amplitude when that is positive. -/
noncomputable def PlayerSource.next (ps : PlayerSource) :
    Option (PlayerSource × Option ℝ) :=
  match PlayerSource.nextAux ps.tones_samples 0 0 true with
  | none => none
  | some (l, sample, acc, noMore) =>
    if noMore then some ({ ps with tones_samples := l }, none)
    else some ({ ps with tones_samples := l },
      some (if 0 < acc then sample / Real.sqrt acc else sample))

/-- The sample a stroke contributes to the current mixing round (`0` when
it is exhausted). -/
noncomputable def strokeEmit (ts : ToneSamples) : ℝ :=
  match ts.next with
  | some (_, some s) => s
  | _ => 0

/-- The amplitude a contributing stroke adds to the mixing denominator:
`last_amplitude()` read after `next()` advanced the cursor. -/
noncomputable def strokeNextAmp (ts : ToneSamples) : ℝ :=
  match ts.next with
  | some (ts1, some _) => ts1.lastAmplitude.getD 0
  | _ => 0

/-- The amplitude that scaled the stroke's contributed sample: the
amplitude under the cursor BEFORE the advance. -/
noncomputable def strokeScalingAmp (ts : ToneSamples) : ℝ :=
  match ts.next with
  | some (_, some _) => ((ts.samples.get? ts.i).map Tone.amplitude).getD 0
  | _ => 0

/-- Modelled from the spec, for comparison with the code (claim C1): the
emitted mix divides the summed samples by the square root of the summed
amplitudes "that scaled those samples", and is `0` when that sum is not
positive. -/
noncomputable def specMixedSample (ps : PlayerSource) : ℝ :=
  if 0 < (ps.tones_samples.map strokeScalingAmp).sum then
    (ps.tones_samples.map strokeEmit).sum /
      Real.sqrt ((ps.tones_samples.map strokeScalingAmp).sum)
  else 0

/-- The stroke loop accumulates exactly the per-stroke samples and the
per-stroke advanced-cursor amplitudes. -/
theorem nextAux_sums : ∀ (l : List ToneSamples) (s0 a0 : ℝ) (nm : Bool)
    (l1 : List ToneSamples) (S A : ℝ) (nm1 : Bool),
    PlayerSource.nextAux l s0 a0 nm = some (l1, S, A, nm1) →
    S = s0 + (l.map strokeEmit).sum ∧ A = a0 + (l.map strokeNextAmp).sum
  | [], s0, a0, nm, l1, S, A, nm1, h => by
    simp only [PlayerSource.nextAux, Option.some.injEq, Prod.mk.injEq] at h
    simp [← h.2.1, ← h.2.2.1]
  | ts :: rest, s0, a0, nm, l1, S, A, nm1, h => by
    rw [PlayerSource.nextAux] at h
    match h1 : ts.next with
    | none => rw [h1] at h; cases h
    | some (ts1, none) =>
      rw [h1] at h
      dsimp only [] at h
      match h2 : PlayerSource.nextAux rest s0 a0 nm with
      | none => rw [h2] at h; cases h
      | some (l2, S2, A2, nm2) =>
        rw [h2] at h
        dsimp only [] at h
        obtain ⟨he, ha⟩ := nextAux_sums rest s0 a0 nm l2 S2 A2 nm2 h2
        simp only [Option.some.injEq, Prod.mk.injEq] at h
        obtain ⟨-, hS, hA, -⟩ := h
        subst hS
        subst hA
        constructor
        · rw [he]
          simp [strokeEmit, h1]
        · rw [ha]
          simp [strokeNextAmp, h1]
    | some (ts1, some s) =>
      rw [h1] at h
      dsimp only [] at h
      match ha1 : ts1.lastAmplitude with
      | none => rw [ha1] at h; cases h
      | some a =>
        rw [ha1] at h
        dsimp only [] at h
        match h2 : PlayerSource.nextAux rest (s0 + s) (a0 + a) false with
        | none => rw [h2] at h; cases h
        | some (l2, S2, A2, nm2) =>
          rw [h2] at h
          dsimp only [] at h
          obtain ⟨he, ha'⟩ := nextAux_sums rest (s0 + s) (a0 + a) false l2 S2 A2 nm2 h2
          simp only [Option.some.injEq, Prod.mk.injEq] at h
          obtain ⟨-, hS, hA, -⟩ := h
          subst hS
          subst hA
          constructor
          · rw [he]
            have : strokeEmit ts = s := by simp [strokeEmit, h1]
            rw [List.map_cons, List.sum_cons, this]
            ring
          · rw [ha']
            have : strokeNextAmp ts = a := by simp [strokeNextAmp, h1, ha1]
            rw [List.map_cons, List.sum_cons, this]
            ring

/-! ### Claim C1: the mixing formula -/

/-- C1 amended: every sample emitted by the multi-stroke mixer equals the
sum of the per-stroke samples divided by the square root of the sum of the
contributing strokes' amplitudes at their ADVANCED envelope cursors (the
envelope entry after the one that scaled each stroke's sample) when that
sum is positive, and equals the raw sum of the per-stroke samples
otherwise. -/
theorem mixer_formula (ps ps1 : PlayerSource) (v : ℝ)
    (h : ps.next = some (ps1, some v)) :
    v = if 0 < (ps.tones_samples.map strokeNextAmp).sum then
          (ps.tones_samples.map strokeEmit).sum /
            Real.sqrt ((ps.tones_samples.map strokeNextAmp).sum)
        else (ps.tones_samples.map strokeEmit).sum := by
  unfold PlayerSource.next at h
  match h0 : PlayerSource.nextAux ps.tones_samples 0 0 true with
  | none => rw [h0] at h; cases h
  | some (l, S, A, nm) =>
    rw [h0] at h
    dsimp only [] at h
    obtain ⟨hS, hA⟩ := nextAux_sums ps.tones_samples 0 0 true l S A nm h0
    rw [zero_add] at hS hA
    by_cases hnm : nm = true
    · rw [if_pos hnm] at h
      simp at h
    · rw [if_neg hnm] at h
      simp only [Option.some.injEq, Prod.mk.injEq] at h
      rw [← h.2, hS, hA]

/-- A silent one-stroke source used as the C1 witness input. -/
noncomputable def tsW1 : ToneSamples :=
  { samples := [{ frequency := 0, amplitude := 0 },
                { frequency := 0, amplitude := 0 }], i := 0, time := 0 }

/-- The C1 witness source. -/
noncomputable def psW1 : PlayerSource :=
  { sample_rate := 44100, tones_samples := [tsW1] }

/-- Witness for the amended C1 at a concrete source. -/
theorem mixer_formula_witness :
    psW1.next =
      some ({ sample_rate := 44100,
              tones_samples := [{ samples := tsW1.samples, i := 1, time := 0 }] },
        some 0) ∧
    (0 : ℝ) =
      if 0 < (psW1.tones_samples.map strokeNextAmp).sum then
        (psW1.tones_samples.map strokeEmit).sum /
          Real.sqrt ((psW1.tones_samples.map strokeNextAmp).sum)
      else (psW1.tones_samples.map strokeEmit).sum := by
  have hnext : psW1.next =
      some ({ sample_rate := 44100,
              tones_samples := [{ samples := tsW1.samples, i := 1, time := 0 }] },
        some 0) := by
    simp [psW1, tsW1, PlayerSource.next, PlayerSource.nextAux, ToneSamples.next,
      ToneSamples.lastAmplitude, ToneSamples.get_sample]
  exact ⟨hnext, mixer_formula psW1 _ 0 hnext⟩

/-- The stroke state exhibiting the C1 counterexample: the cursor sits on
an amplitude-1 entry, the next entry has amplitude 4, and the phase is
π/2 so the oscillator contributes sin(π/2)=1. -/
noncomputable def tsC1 : ToneSamples :=
  { samples := [{ frequency := 0, amplitude := 1 },
                { frequency := 0, amplitude := 4 },
                { frequency := 0, amplitude := 0 }],
    i := 0, time := Real.pi / 2 }

/-- The mixer state exhibiting the C1 counterexample. -/
noncomputable def psC1 : PlayerSource :=
  { sample_rate := 44100, tones_samples := [tsC1] }

/-- C1 counterexample: the mixer emits `1/2` (the sample `1` scaled by the
square root of the amplitude `4` found at the ADVANCED cursor), while the
claimed formula — dividing by the square root of the amplitudes that
scaled the samples (`1`) — yields `1`.  The denominator amplitude is not
the amplitude that scaled the sample, and the two outputs differ. -/
theorem mixer_counterexample :
    psC1.next =
      some ({ sample_rate := 44100,
              tones_samples := [{ samples := tsC1.samples, i := 1, time := Real.pi / 2 }] },
        some (1 / 2)) ∧
    specMixedSample psC1 = 1 ∧ ((1 : ℝ) / 2) ≠ 1 := by
  have hsqrt4 : Real.sqrt 4 = 2 := by
    rw [show (4 : ℝ) = 2 ^ 2 by norm_num]
    exact Real.sqrt_sq (by norm_num)
  refine ⟨?_, ?_, by norm_num⟩
  · simp [psC1, tsC1, PlayerSource.next, PlayerSource.nextAux, ToneSamples.next,
      ToneSamples.lastAmplitude, ToneSamples.get_sample, Real.sin_pi_div_two,
      hsqrt4]
  · simp [specMixedSample, psC1, strokeEmit, strokeScalingAmp, tsC1,
      ToneSamples.next, ToneSamples.get_sample, Real.sin_pi_div_two]

/-! ### Claim C6: mixing two identical strokes -/

/-- C6 amended: mixing two strokes in identical states (equal constant
amplitude, fully overlapping envelopes) yields, at each output index, a
value whose magnitude is √2 times the magnitude of the single-stroke
output — the loudness is energy-normalized to grow like √N, it is neither
equal to the single stroke nor doubled. -/
theorem mixing_two_equal (ts ts1 : ToneSamples) (s a : ℝ)
    (hn : ts.next = some (ts1, some s)) (ha : ts1.lastAmplitude = some a)
    (hpos : 0 < a) :
    ∃ v1 v2 ps1 ps2,
      PlayerSource.next { sample_rate := 44100, tones_samples := [ts] } =
        some (ps1, some v1) ∧
      PlayerSource.next { sample_rate := 44100, tones_samples := [ts, ts] } =
        some (ps2, some v2) ∧
      |v2| = Real.sqrt 2 * |v1| := by
  have hpos2 : (0 : ℝ) < a + a := by linarith
  have hsa : Real.sqrt a ≠ 0 := ne_of_gt (Real.sqrt_pos.mpr hpos)
  have hs2 : Real.sqrt 2 ≠ 0 := ne_of_gt (Real.sqrt_pos.mpr (by norm_num))
  have h22 : Real.sqrt 2 * Real.sqrt 2 = 2 := Real.mul_self_sqrt (by norm_num)
  refine ⟨s / Real.sqrt a, (s + s) / Real.sqrt (a + a),
    { sample_rate := 44100, tones_samples := [ts1] },
    { sample_rate := 44100, tones_samples := [ts1, ts1] }, ?_, ?_, ?_⟩
  · simp [PlayerSource.next, PlayerSource.nextAux, hn, ha, hpos]
  · simp [PlayerSource.next, PlayerSource.nextAux, hn, ha, hpos2]
  · have hv : (s + s) / Real.sqrt (a + a) = Real.sqrt 2 * (s / Real.sqrt a) := by
      rw [show a + a = 2 * a by ring, Real.sqrt_mul (by norm_num : (0:ℝ) ≤ 2) a]
      calc (s + s) / (Real.sqrt 2 * Real.sqrt a)
          = (Real.sqrt 2 * (Real.sqrt 2 * s)) / (Real.sqrt 2 * Real.sqrt a) := by
            rw [← mul_assoc, h22]
            ring_nf
        _ = (Real.sqrt 2 * s) / Real.sqrt a := mul_div_mul_left _ _ hs2
        _ = Real.sqrt 2 * (s / Real.sqrt a) := mul_div_assoc _ _ _
    rw [hv, abs_mul, abs_of_nonneg (Real.sqrt_nonneg 2)]

/-- The stroke state exhibiting the C6 counterexample: constant amplitude
2, phase π/2. -/
noncomputable def tsC6 : ToneSamples :=
  { samples := [{ frequency := 0, amplitude := 2 },
                { frequency := 0, amplitude := 2 },
                { frequency := 0, amplitude := 2 }],
    i := 0, time := Real.pi / 2 }

/-- C6 counterexample: with one amplitude-2 stroke at phase π/2 the mixer
emits √2, but with two such strokes it emits 2; the magnitudes differ (by
the factor √2), refuting `|mixed| = |single|`. -/
theorem mixing_counterexample :
    PlayerSource.next { sample_rate := 44100, tones_samples := [tsC6] } =
      some ({ sample_rate := 44100,
              tones_samples := [{ samples := tsC6.samples, i := 1, time := Real.pi / 2 }] },
        some (Real.sqrt 2)) ∧
    PlayerSource.next { sample_rate := 44100, tones_samples := [tsC6, tsC6] } =
      some ({ sample_rate := 44100,
              tones_samples := [{ samples := tsC6.samples, i := 1, time := Real.pi / 2 },
                                { samples := tsC6.samples, i := 1, time := Real.pi / 2 }] },
        some 2) ∧
    |(2 : ℝ)| ≠ |Real.sqrt 2| := by
  have hs2 : Real.sqrt 2 ≠ 0 := ne_of_gt (Real.sqrt_pos.mpr (by norm_num))
  have h22 : Real.sqrt 2 * Real.sqrt 2 = 2 := Real.mul_self_sqrt (by norm_num)
  have hdiv2 : (2 : ℝ) / Real.sqrt 2 = Real.sqrt 2 := by
    rw [div_eq_iff hs2, h22]
  have hsqrt4 : Real.sqrt 4 = 2 := by
    rw [show (4 : ℝ) = 2 ^ 2 by norm_num]
    exact Real.sqrt_sq (by norm_num)
  have hlt : Real.sqrt 2 < 2 := by
    nlinarith [Real.sq_sqrt (show (0:ℝ) ≤ 2 by norm_num), Real.sqrt_nonneg 2]
  refine ⟨?_, ?_, ?_⟩
  · simp [PlayerSource.next, PlayerSource.nextAux, tsC6, ToneSamples.next,
      ToneSamples.lastAmplitude, ToneSamples.get_sample, Real.sin_pi_div_two,
      hdiv2]
  · have h44 : Real.sqrt (2 + 2) = 2 := by
      rw [show (2 : ℝ) + 2 = 4 by norm_num, hsqrt4]
    simp [PlayerSource.next, PlayerSource.nextAux, tsC6, ToneSamples.next,
      ToneSamples.lastAmplitude, ToneSamples.get_sample, Real.sin_pi_div_two,
      h44]
  · rw [abs_of_nonneg (by norm_num : (0:ℝ) ≤ 2),
        abs_of_nonneg (Real.sqrt_nonneg 2)]
    exact ne_of_gt hlt

/-- The silent stroke used as the C6 witness input. -/
noncomputable def tsW6 : ToneSamples :=
  { samples := [{ frequency := 0, amplitude := 1 },
                { frequency := 0, amplitude := 1 }], i := 0, time := 0 }

/-- Witness for the amended C6 at a concrete stroke state. -/
theorem mixing_two_equal_witness :
    tsW6.next = some ({ samples := tsW6.samples, i := 1, time := 0 }, some 0) ∧
    ToneSamples.lastAmplitude { samples := tsW6.samples, i := 1, time := 0 } = some 1 ∧
    (0 : ℝ) < 1 ∧
    (∃ v1 v2 ps1 ps2,
      PlayerSource.next { sample_rate := 44100, tones_samples := [tsW6] } =
        some (ps1, some v1) ∧
      PlayerSource.next { sample_rate := 44100, tones_samples := [tsW6, tsW6] } =
        some (ps2, some v2) ∧
      |v2| = Real.sqrt 2 * |v1|) := by
  have h1 : tsW6.next =
      some ({ samples := tsW6.samples, i := 1, time := 0 }, some 0) := by
    simp [tsW6, ToneSamples.next, ToneSamples.get_sample]
  have h2 : ToneSamples.lastAmplitude
      { samples := tsW6.samples, i := 1, time := 0 } = some 1 := by
    simp [tsW6, ToneSamples.lastAmplitude]
  exact ⟨h1, h2, by norm_num,
    mixing_two_equal tsW6 _ 0 1 h1 h2 (by norm_num)⟩

/-! ### Claim C3: the sample sequence is finite -/

/-- Number of samples a stroke will still emit before exhausting. -/
def strokeRem (ts : ToneSamples) : ℕ := ts.samples.length - 1 - ts.i

/-- Number of samples the whole source will still emit. -/
def maxRem (ps : PlayerSource) : ℕ :=
  (ps.tones_samples.map strokeRem).foldr max 0

/-- Pull `n` samples from the source, threading the state; `none` when a
call panics. -/
noncomputable def stepN : ℕ → PlayerSource → Option PlayerSource
  | 0, ps => some ps
  | n + 1, ps =>
    match ps.next with
    | none => none
    | some (ps1, _) => stepN n ps1

/-- Behaviour of one `ToneSamples::next` call under the cursor invariant:
it succeeds, keeps the invariant, decrements the remaining count, and
signals exhaustion exactly when the cursor has reached the final entry. -/
theorem toneNext_spec (ts : ToneSamples) (h : ts.i < ts.samples.length) :
    ∃ ts1 o, ts.next = some (ts1, o) ∧
      ts1.i < ts1.samples.length ∧
      ts1.samples = ts.samples ∧
      strokeRem ts1 = strokeRem ts - 1 ∧
      (o = none ↔ ts.samples.length ≤ ts.i + 1) := by
  obtain ⟨tone, htone⟩ : ∃ tone, ts.samples.get? ts.i = some tone := by
    rw [List.get?_eq_get h]
    exact ⟨_, rfl⟩
  unfold ToneSamples.next
  rw [htone]
  dsimp only []
  by_cases hlen : ts.samples.length ≤ ts.i + 1
  · rw [if_pos hlen]
    refine ⟨_, none, rfl, by simp; omega, rfl, ?_, by simp [hlen]⟩
    simp [strokeRem]
    omega
  · rw [if_neg hlen]
    refine ⟨_, some (ts.get_sample * tone.amplitude), rfl, by simp; omega, rfl, ?_, by simp [hlen]⟩
    simp [strokeRem]
    omega

/-- Behaviour of the stroke loop under the cursor invariant: it succeeds,
keeps the invariant, decrements every stroke's remaining count, and the
`no_more_samples` flag ends up true exactly when the incoming flag was
true and every stroke was already exhausted. -/
theorem nextAux_term : ∀ (l : List ToneSamples) (s0 a0 : ℝ) (nm : Bool),
    (∀ ts ∈ l, ts.i < ts.samples.length) →
    ∃ l1 S A nm1, PlayerSource.nextAux l s0 a0 nm = some (l1, S, A, nm1) ∧
      (∀ ts1 ∈ l1, ts1.i < ts1.samples.length) ∧
      l1.map strokeRem = l.map (fun ts => strokeRem ts - 1) ∧
      nm1 = (nm && l.all fun ts => decide (ts.samples.length ≤ ts.i + 1))
  | [], s0, a0, nm, _ => by
    refine ⟨[], s0, a0, nm, rfl, by simp, by simp, by simp⟩
  | ts :: rest, s0, a0, nm, h => by
    obtain ⟨ts1, o, hnext, hinv1, hsamp, hrem, hexh⟩ :=
      toneNext_spec ts (h ts (List.mem_cons_self _ _))
    have hrest : ∀ t ∈ rest, t.i < t.samples.length :=
      fun t ht => h t (List.mem_cons_of_mem _ ht)
    match o, hexh with
    | none, hexh =>
      obtain ⟨l1, S, A, nm1, haux, hinv2, hrem2, hnm⟩ :=
        nextAux_term rest s0 a0 nm hrest
      refine ⟨ts1 :: l1, S, A, nm1, ?_, ?_, ?_, ?_⟩
      · rw [PlayerSource.nextAux, hnext]
        dsimp only []
        rw [haux]
      · intro t ht
        rcases List.mem_cons.mp ht with ht | ht
        · rw [ht]; exact hinv1
        · exact hinv2 t ht
      · simp only [List.map_cons, hrem2, hrem]
      · rw [hnm, List.all_cons]
        have : decide (ts.samples.length ≤ ts.i + 1) = true := by
          simp [hexh.mp rfl]
        rw [this]
        simp
    | some s, hexh =>
      obtain ⟨amp, hamp⟩ : ∃ amp, ts1.lastAmplitude = some amp := by
        unfold ToneSamples.lastAmplitude
        rw [List.get?_eq_get hinv1]
        exact ⟨_, rfl⟩
      obtain ⟨l1, S, A, nm1, haux, hinv2, hrem2, hnm⟩ :=
        nextAux_term rest (s0 + s) (a0 + amp) false hrest
      refine ⟨ts1 :: l1, S, A, nm1, ?_, ?_, ?_, ?_⟩
      · rw [PlayerSource.nextAux, hnext]
        dsimp only []
        rw [hamp]
        dsimp only []
        rw [haux]
      · intro t ht
        rcases List.mem_cons.mp ht with ht | ht
        · rw [ht]; exact hinv1
        · exact hinv2 t ht
      · simp only [List.map_cons, hrem2, hrem]
      · rw [hnm, List.all_cons]
        have hne : ¬ ts.samples.length ≤ ts.i + 1 := by
          intro hc
          exact absurd (hexh.mpr hc) (by simp)
        have : decide (ts.samples.length ≤ ts.i + 1) = false := by
          simp [hne]
        rw [this]
        simp

/-- Every member of a list of naturals is bounded by the folded max. -/
theorem mem_le_foldr_max : ∀ (l : List ℕ) (a : ℕ), a ∈ l → a ≤ l.foldr max 0
  | [], a, h => absurd h (by simp)
  | b :: rest, a, h => by
    rcases List.mem_cons.mp h with h | h
    · rw [h]
      exact le_max_left _ _
    · exact le_trans (mem_le_foldr_max rest a h) (le_max_right _ _)

/-- Decrementing every entry decrements the folded max. -/
theorem foldr_max_pred : ∀ (l : List ℕ),
    (l.map fun n => n - 1).foldr max 0 = l.foldr max 0 - 1
  | [] => rfl
  | a :: rest => by
    simp only [List.map_cons, List.foldr_cons, foldr_max_pred rest]
    omega

/-- Behaviour of one `PlayerSource::next` call under the cursor invariant:
it succeeds, keeps the invariant, decrements the remaining count, and
signals exhaustion (`none`) exactly when every stroke's sub-sequence has
terminated. -/
theorem next_term (ps : PlayerSource)
    (h : ∀ ts ∈ ps.tones_samples, ts.i < ts.samples.length) :
    ∃ ps1 o, ps.next = some (ps1, o) ∧
      (∀ ts ∈ ps1.tones_samples, ts.i < ts.samples.length) ∧
      maxRem ps1 = maxRem ps - 1 ∧
      (o = none ↔ ∀ ts ∈ ps.tones_samples, ts.samples.length ≤ ts.i + 1) := by
  obtain ⟨l1, S, A, nm1, haux, hinv, hrem, hnm⟩ :=
    nextAux_term ps.tones_samples 0 0 true h
  have hmax : maxRem { sample_rate := ps.sample_rate, tones_samples := l1 } =
      maxRem ps - 1 := by
    unfold maxRem
    dsimp only []
    rw [hrem, show (ps.tones_samples.map fun ts => strokeRem ts - 1) =
      (ps.tones_samples.map strokeRem).map (fun n => n - 1) by rw [List.map_map]; rfl]
    exact foldr_max_pred _
  have hnm_iff : nm1 = true ↔ ∀ ts ∈ ps.tones_samples, ts.samples.length ≤ ts.i + 1 := by
    rw [hnm]
    simp [List.all_eq_true]
  unfold PlayerSource.next
  rw [haux]
  dsimp only []
  by_cases hb : nm1 = true
  · rw [if_pos hb]
    exact ⟨_, none, rfl, hinv, hmax, by simp only [true_iff]; exact hnm_iff.mp hb⟩
  · rw [if_neg hb]
    refine ⟨_, _, rfl, hinv, hmax, ?_⟩
    simp only [reduceCtorEq, false_iff]
    intro hc
    exact hb (hnm_iff.mpr hc)

/-- After exactly `maxRem ps` samples the source signals exhaustion,
namely once every stroke's sub-sequence has terminated. -/
theorem player_terminates : ∀ (n : ℕ) (ps : PlayerSource), maxRem ps = n →
    (∀ ts ∈ ps.tones_samples, ts.i < ts.samples.length) →
    ∃ ps1 ps2, stepN n ps = some ps1 ∧
      PlayerSource.next ps1 = some (ps2, none) ∧
      ∀ ts ∈ ps1.tones_samples, ts.samples.length ≤ ts.i + 1
  | 0, ps, hmax, h => by
    obtain ⟨ps1, o, hnext, -, -, hiff⟩ := next_term ps h
    have hexh : ∀ ts ∈ ps.tones_samples, ts.samples.length ≤ ts.i + 1 := by
      intro ts hts
      have hle : strokeRem ts ≤ 0 := by
        rw [← hmax]
        exact mem_le_foldr_max _ _ (List.mem_map_of_mem strokeRem hts)
      have := h ts hts
      unfold strokeRem at hle
      omega
    refine ⟨ps, ps1, rfl, ?_, hexh⟩
    rw [hnext, hiff.mpr hexh]
  | n + 1, ps, hmax, h => by
    obtain ⟨ps1, o, hnext, hinv, hrem, -⟩ := next_term ps h
    have hmax1 : maxRem ps1 = n := by omega
    obtain ⟨ps2, ps3, hstep, hend, hexh⟩ := player_terminates n ps1 hmax1 hinv
    refine ⟨ps2, ps3, ?_, hend, hexh⟩
    rw [stepN, hnext]
    exact hstep

/-- C3 amended (timeline module): for every source state whose stroke
cursors are inside their envelopes — as holds for every source freshly
built from a history snapshot — the sample producer yields a finite
sequence: after finitely many calls (`maxRem`) its next operation signals
exhaustion (returns None), namely once every stroke's per-stroke
sub-sequence has terminated.  (The main.rs variant of the producer never
signals exhaustion; see the counterexample.) -/
theorem player_finite (ps : PlayerSource)
    (h : ∀ ts ∈ ps.tones_samples, ts.i < ts.samples.length) :
    ∃ n ps1 ps2, stepN n ps = some ps1 ∧
      PlayerSource.next ps1 = some (ps2, none) ∧
      ∀ ts ∈ ps1.tones_samples, ts.samples.length ≤ ts.i + 1 := by
  obtain ⟨ps1, ps2, hs, he, hx⟩ := player_terminates (maxRem ps) ps rfl h
  exact ⟨maxRem ps, ps1, ps2, hs, he, hx⟩

/-- A two-sample single-stroke source used as the C3 witness input. -/
noncomputable def psW3 : PlayerSource :=
  { sample_rate := 44100,
    tones_samples := [{ samples := [{ frequency := 0, amplitude := 0 },
                                    { frequency := 0, amplitude := 0 }],
                        i := 0, time := 0 }] }

/-- Witness for the amended C3 at a concrete source. -/
theorem player_finite_witness :
    (∀ ts ∈ psW3.tones_samples, ts.i < ts.samples.length) ∧
    (∃ n ps1 ps2, stepN n psW3 = some ps1 ∧
      PlayerSource.next ps1 = some (ps2, none) ∧
      ∀ ts ∈ ps1.tones_samples, ts.samples.length ≤ ts.i + 1) :=
  ⟨by intro ts hts; simp [psW3] at hts; simp [hts],
   player_finite psW3 (by intro ts hts; simp [psW3] at hts; simp [hts])⟩

/-! The older synthesizer in src/main.rs: `ToneSamples::next` there returns
a plain `f32` (`0.0` once exhausted) and the `Iterator` impl of its
`PlayerSource` unconditionally returns `Some(sample)` — it never signals
exhaustion. -/

/-- `ToneSamples::next` from main.rs: like the timeline version, but the
exhaustion branch returns the sample value `0.0` instead of `None`. -/
noncomputable def mainToneNext (ts : ToneSamples) : Option (ToneSamples × ℝ) :=
  match ts.samples.get? ts.i with
  | none => none
  | some tone =>
    if ts.samples.length ≤ ts.i + 1 then
      some ({ ts with i := ts.samples.length - 1 }, 0)
    else
      some
        ({ samples := ts.samples, i := ts.i + 1,
           time := ts.time + 2 * Real.pi * tone.frequency / 44100 },
         ts.get_sample * tone.amplitude)

/-- The stroke loop of `PlayerSource::next` in main.rs: every stroke's
sample and `last_amplitude()` are accumulated unconditionally. -/
noncomputable def mainNextAux :
    List ToneSamples → ℝ → ℝ → Option (List ToneSamples × ℝ × ℝ)
  | [], sample, acc => some ([], sample, acc)
  | ts :: rest, sample, acc =>
    match mainToneNext ts with
    | none => none
    | some (ts1, s) =>
      match ts1.lastAmplitude with
      | none => none
      | some a =>
        match mainNextAux rest (sample + s) (acc + a) with
        | none => none
        | some (l, s2, a2) => some (ts1 :: l, s2, a2)

/-- `PlayerSource::next` from main.rs: normalize and ALWAYS return
`Some(sample)`. -/
noncomputable def mainSourceNext (ps : PlayerSource) :
    Option (PlayerSource × Option ℝ) :=
  match mainNextAux ps.tones_samples 0 0 with
  | none => none
  | some (l, sample, acc) =>
    some ({ ps with tones_samples := l },
      some (if 0 < acc then sample / Real.sqrt acc else sample))

/-- Pull `n` samples from the main.rs source. -/
noncomputable def mainStepN : ℕ → PlayerSource → Option PlayerSource
  | 0, ps => some ps
  | n + 1, ps =>
    match mainSourceNext ps with
    | none => none
    | some (ps1, _) => mainStepN n ps1

/-- A state on which `mainSourceNext` acts as the identity keeps doing so
forever. -/
theorem mainStepN_fixpoint (ps : PlayerSource) (v : Option ℝ)
    (h : mainSourceNext ps = some (ps, v)) : ∀ n, mainStepN n ps = some ps
  | 0 => rfl
  | n + 1 => by
    rw [mainStepN, h]
    exact mainStepN_fixpoint ps v h n

/-- An exhausted single-stroke main.rs source. -/
noncomputable def psM3 : PlayerSource :=
  { sample_rate := 44100,
    tones_samples := [{ samples := [{ frequency := 0, amplitude := 0 }],
                        i := 0, time := 0 }] }

/-- C3 counterexample: the main.rs producer (also cited by the claim)
NEVER signals exhaustion.  On the exhausted state `psM3` it returns
`Some 0.0` and leaves the state unchanged, hence — iterating, here 1000
times — the sequence of samples never ends with `None`. -/
theorem main_player_no_exhaustion :
    mainSourceNext psM3 = some (psM3, some 0) ∧
    mainStepN 1000 psM3 = some psM3 := by
  have h : mainSourceNext psM3 = some (psM3, some 0) := by
    simp [psM3, mainSourceNext, mainNextAux, mainToneNext,
      ToneSamples.lastAmplitude, ToneSamples.get_sample]
  exact ⟨h, mainStepN_fixpoint psM3 (some 0) h 1000⟩

/-! ### Claim C4: pitch interpolation during envelope construction -/

/-- The pitch value computed by `Timeline::render_audio` (timeline.rs,
inside the per-segment sample loop) for the sample at index `i`, given the
tempo-scaled segment endpoints `minP`/`maxP` ordered by x:
`(min.y + (max.y - min.y) * (i / SAMPLE_RATE - min.x)) + 0.5`.
There is no division by `(max.x - min.x)` in the source. -/
def envelopeValue (minP maxP : Pt) (i : ℕ) : ℚ :=
  (minP.y + (maxP.y - minP.y) * ((i : ℚ) / 44100 - minP.x)) + 1/2

/-- Modelled from the spec (claim C4's formula): linear interpolation
`min.y + (max.y - min.y) * (t - min.x) / (max.x - min.x)`, guarded for
vertical segments (`max.x = min.x` treated as a single instant), plus the
same half-row bias. -/
def specLerpValue (minP maxP : Pt) (i : ℕ) : ℚ :=
  (if maxP.x = minP.x then minP.y
   else minP.y + (maxP.y - minP.y) * ((i : ℚ) / 44100 - minP.x) / (maxP.x - minP.x))
  + 1/2

/-- C4 evaluation: for the segment from (0, 0) to (0.5, 1) at the sample
index whose time is 0.5 (the segment's end), the code computes pitch value
1 while the interpolation formula claimed by the spec yields 1.5: the code
omits the division by `(max.x - min.x)`, so the pitch never reaches the
drawn end value unless the segment spans exactly one time unit.  (There
being no division, there is also no divide-by-zero guard in the code.) -/
theorem envelope_interpolation_divergence :
    envelopeValue { x := 0, y := 0 } { x := 1/2, y := 1 } 22050 = 1 ∧
    specLerpValue { x := 0, y := 0 } { x := 1/2, y := 1 } 22050 = 3/2 ∧
    (1 : ℚ) ≠ 3/2 := by
  refine ⟨?_, ?_, by norm_num⟩
  · norm_num [envelopeValue]
  · norm_num [specLerpValue]
